import Mathlib

/-!
Verification development for the bounded crawl-and-extract engine of
`app/services.py` (class `ScrapingService`).

URLs are modelled as Lean `String`s (lists of characters).  The Python
standard-library function `urllib.parse.urlparse`, which `services.py` uses
in `_normalize_url`, `_scrape_url` and `_find_centralized_urls`, is embedded
faithfully (CPython 3.11 semantics) as `pyUrlparse` below.  Network and
browser effects (`aiohttp` fetches, Playwright rendering, webhook POSTs) are
modelled as oracle functions passed in as parameters: the code under
verification only observes their results.
-/

namespace Scraper

/- ----------------- CPython `urllib.parse.urlparse` ----------------- -/

/-- Characters removed everywhere by CPython `urlsplit`
(`_UNSAFE_URL_BYTES_TO_REMOVE` = tab, CR, LF). -/
def isUnsafeUrlChar (c : Char) : Bool := c = '\t' || c = '\r' || c = '\n'

/-- Leading C0-control-or-space characters stripped by CPython `urlsplit`. -/
def isC0OrSpace (c : Char) : Bool := c.toNat ≤ 32

/-- The input sanitisation done at the top of CPython `urlsplit`:
left-strip C0 controls and spaces, then delete tab/CR/LF everywhere. -/
def cleanUrl (cs : List Char) : List Char :=
  (cs.dropWhile isC0OrSpace).filter (fun c => !isUnsafeUrlChar c)

/-- CPython `scheme_chars`: letters, digits, `+`, `-`, `.` (ASCII). -/
def isSchemeChar (c : Char) : Bool := c.isAlpha || c.isDigit || c = '+' || c = '-' || c = '.'

/-- Scheme recognition of CPython `urlsplit`: the text before the first `:`
is a scheme if it is nonempty, starts with an ASCII letter and consists of
scheme characters only; it is then lowercased.  Otherwise the URL has no
scheme and is left whole. -/
def splitScheme (cs : List Char) : List Char × List Char :=
  match cs.dropWhile (fun c => c ≠ ':') with
  | [] => ([], cs)
  | _ :: rest =>
    let pre := cs.takeWhile (fun c => c ≠ ':')
    if pre ≠ [] ∧ (pre.headD ' ').isAlpha ∧ pre.all isSchemeChar
    then (pre.map Char.toLower, rest)
    else ([], cs)

/-- A character that does not end the netloc (CPython `_splitnetloc`
scans until `/`, `?` or `#`). -/
def notNetlocDelim (c : Char) : Bool := c ≠ '/' && c ≠ '?' && c ≠ '#'

/-- Netloc extraction of CPython `urlsplit`: only when the remainder starts
with `//` (`url[:2] == '//'`); raises `ValueError` (here `none`) on
unbalanced square brackets. -/
def splitNetloc (rest : List Char) : Option (List Char × List Char) :=
  match rest with
  | c1 :: c2 :: body =>
    if c1 = '/' ∧ c2 = '/' then
      let nl := body.takeWhile notNetlocDelim
      if (nl.contains '[') != (nl.contains ']') then none
      else some (nl, body.dropWhile notNetlocDelim)
    else some ([], rest)
  | _ => some ([], rest)

/-- `url.split(d, 1)[0]`: everything before the first occurrence of `d`
(the whole list when `d` is absent). -/
def takeUntil (d : Char) (cs : List Char) : List Char :=
  cs.takeWhile (fun c => c ≠ d)

/-- `url.split(d, 1)[1]` when `d` occurs, `[]` otherwise. -/
def dropPast (d : Char) (cs : List Char) : List Char :=
  match cs.dropWhile (fun c => c ≠ d) with
  | _ :: t => t
  | [] => []

/-- CPython `uses_params`: schemes for which `urlparse` splits `;params`
off the path. -/
def usesParams (s : List Char) : Bool :=
  ["", "ftp", "hdl", "prospero", "http", "imap", "https", "shttp", "rtsp",
   "rtspu", "sip", "sips", "mms", "sftp", "tel"].any (fun x => x.data == s)

/-- CPython `_splitparams` (only invoked when `;` occurs): split at the
first `;` of the last path segment. -/
def splitParams (p : List Char) : List Char × List Char :=
  if p.contains ';' then
    if p.contains '/' then
      let afterLast := (p.reverse.takeWhile (fun c => c ≠ '/')).reverse
      let beforeIncl := p.take (p.length - afterLast.length)
      if afterLast.contains ';' then
        (beforeIncl ++ takeUntil ';' afterLast, dropPast ';' afterLast)
      else (p, [])
    else (takeUntil ';' p, dropPast ';' p)
  else (p, [])

/-- Result of `urllib.parse.urlparse`. -/
structure UrlParts where
  scheme : List Char
  netloc : List Char
  path : List Char
  params : List Char
  query : List Char
  fragment : List Char
deriving DecidableEq, Repr

/-- CPython 3.11 `urllib.parse.urlparse` with `allow_fragments=True`:
sanitise, split scheme, split netloc (`ValueError` = `.error`), split
fragment, split query, and split params off the path for `uses_params`
schemes. -/
def pyUrlparse (cs : List Char) : Except Unit UrlParts :=
  let u := cleanUrl cs
  let sr := splitScheme u
  match splitNetloc sr.2 with
  | none => .error ()
  | some (netloc, rest2) =>
    let beforeFrag := takeUntil '#' rest2
    let fragment := dropPast '#' rest2
    let beforeQuery := takeUntil '?' beforeFrag
    let query := dropPast '?' beforeFrag
    let pp :=
      if usesParams sr.1 ∧ beforeQuery.contains ';' then splitParams beforeQuery
      else (beforeQuery, [])
    .ok ⟨sr.1, netloc, pp.1, pp.2, query, fragment⟩

/-- `f"{scheme}://{netloc}{path}"` as a character list. -/
def urlConcat (s n p : List Char) : List Char :=
  s ++ ':' :: '/' :: '/' :: (n ++ p)

/-- `ScrapingService._normalize_url` (services.py lines 440-460): keep
scheme://netloc/path, drop query and fragment, drop one trailing slash
unless the result is the bare root; on a `urlparse` exception return the
input unchanged. -/
def normalizeUrl (url : String) : String :=
  match pyUrlparse url.data with
  | .error _ => url
  | .ok p =>
    let normalized := urlConcat p.scheme p.netloc p.path
    let root := urlConcat p.scheme p.netloc ['/']
    if normalized ≠ root ∧ normalized.getLast? = some '/' then
      String.mk normalized.dropLast
    else
      String.mk normalized

/- ----------------- `ScrapingService._scrape_url` ----------------- -/

/-- `base_domain.replace('www.', '')` (Python `str.replace`: every
non-overlapping occurrence, left to right). -/
def replaceWww : List Char → List Char
  | 'w' :: 'w' :: 'w' :: '.' :: rest => replaceWww rest
  | c :: rest => c :: replaceWww rest
  | [] => []

/-- `path.endswith(('.jpg', '.jpeg', '.png', '.gif', '.css', '.js'))`. -/
def bannedExt (p : List Char) : Bool :=
  [".jpg", ".jpeg", ".png", ".gif", ".css", ".js"].any
    (fun ext => ext.data.isSuffixOf p)

/-- The per-link body of the filter loop in `_scrape_url` (services.py
lines 355-369): normalize the link, parse it (an exception is logged and
the link skipped, hence `none`), and keep it only if its `www.`-stripped
domain equals the current page's `www.`-stripped domain and its path is
nonempty, not the bare root, and not a static-asset extension. -/
def linkFilter (baseDomainClean : List Char) (link : String) : Option String :=
  match pyUrlparse (normalizeUrl link).data with
  | .error _ => none
  | .ok p =>
    if replaceWww p.netloc = baseDomainClean ∧
       p.path ≠ [] ∧ p.path ≠ ['/'] ∧ bannedExt p.path = false
    then some (normalizeUrl link) else none

/-- Code-point lexicographic comparison of character lists: the order
Python's `sorted` uses on strings. -/
def charListLe : List Char → List Char → Bool
  | [], _ => true
  | _ :: _, [] => false
  | a :: as, b :: bs =>
    if a.toNat < b.toNat then true
    else if b.toNat < a.toNat then false
    else charListLe as bs

/-- Python string order `a <= b` as a proposition. -/
def urlle (a b : String) : Prop := charListLe a.data b.data = true

instance : DecidableRel urlle := fun a b =>
  decEq (charListLe a.data b.data) true

/-- `sorted(...)` on a list of strings. -/
def sortUrls (l : List String) : List String := l.insertionSort urlle

/-- The `for link in links` filter loop of `_scrape_url`, accumulating
into `acc`. -/
def collectFilteredAux (baseDomainClean : List Char) (acc : List String) :
    List String → List String
  | [] => acc
  | link :: ls =>
    match linkFilter baseDomainClean link with
    | none => collectFilteredAux baseDomainClean acc ls
    | some n =>
      collectFilteredAux baseDomainClean (if n ∈ acc then acc else acc ++ [n]) ls

/-- Accumulate `filtered_links` in page order, keeping first occurrences
(the Python code inserts into a `set`; converting the set to a *sorted*
list makes the set's iteration order irrelevant, so a first-occurrence
list of the same elements is a faithful model). -/
def collectFiltered (baseDomainClean : List Char) (links : List String) : List String :=
  collectFilteredAux baseDomainClean [] links

/-- What the Playwright rendering of one URL yields: the cleaned text of
the page and the raw absolute URLs harvested from the DOM, or `none` when
navigation/extraction raises. -/
structure RenderResult where
  content : String
  rawLinks : List String
deriving DecidableEq, Repr

/-- `ScrapingService._scrape_url` (services.py lines 290-383): compute the
current page's domain via `urlparse`, render the page (exceptions
propagate, hence `none`), then filter, deduplicate and sort the harvested
links.  Returns the extracted content and the sorted filtered link list. -/
def scrapeUrl (render : String → Option RenderResult) (url : String) :
    Option (String × List String) :=
  match pyUrlparse url.data with
  | .error _ => none
  | .ok pu =>
    match render url with
    | none => none
    | some rr =>
      let baseDomainClean := replaceWww pu.netloc
      some (rr.content, sortUrls (collectFiltered baseDomainClean rr.rawLinks))

/- ----------------- `ScrapingService.process_queue` ----------------- -/

/-- One record of `self._all_content[task_id]`: the dict
`{"url": ..., "content": ..., "links_found": len(result["links"])}`. -/
structure PageEntry where
  url : String
  content : String
  linksFound : Nat
deriving DecidableEq, Repr

/-- The per-task traversal bookkeeping mutated by `process_queue`:
`self._processing_queues[task_id]`, `self._processed_urls[task_id]`,
`task.processed_count` and `self._all_content[task_id]`.
`processedUrls` is a Python `set`; membership is all the code uses, so a
first-occurrence list models it. -/
structure CrawlState where
  queue : List String
  processedUrls : List String
  processedCount : Nat
  allContent : List PageEntry
deriving DecidableEq, Repr

/-- The inner `for link in result["links"]` loop (services.py lines
138-142): append `link` to the live queue when it is not yet seen, not
already queued, and `len(queue) + task.processed_count < limit`. -/
def enqueueLinks (limit pc : Nat) (seen : List String) (links : List String)
    (q : List String) : List String :=
  links.foldl (fun q link =>
    if link ∉ seen ∧ link ∉ q ∧ q.length + pc < limit then q ++ [link] else q) q

/-- One crawl uses `scrape : url -> none (exception) | some (content, links)`
as the outcome of `await self._scrape_url(url)`. -/
abbrev ScrapeOracle := String → Option (String × List String)

/-- The `while` loop of `process_queue` (services.py lines 114-149), with
explicit fuel.  Each iteration pops the queue head; an already-seen URL is
skipped; otherwise the URL is marked seen and scraped — on an exception the
loop just continues, on success the page entry is appended, admissible
links are enqueued and `processed_count` incremented.  `crawlFuel` below
strictly exceeds the iteration count, so the fuel never runs out. -/
def processLoopF (scrape : ScrapeOracle) (limit : Nat) : Nat → CrawlState → CrawlState
  | 0, st => st
  | fuel + 1, st =>
    match st.queue with
    | [] => st
    | current :: rest =>
      if st.processedCount < limit then
        if current ∈ st.processedUrls then
          processLoopF scrape limit fuel { st with queue := rest }
        else
          let seen := current :: st.processedUrls
          match scrape current with
          | none =>
            processLoopF scrape limit fuel { st with queue := rest, processedUrls := seen }
          | some (content, links) =>
            processLoopF scrape limit fuel
              { queue := enqueueLinks limit st.processedCount seen links rest,
                processedUrls := seen,
                processedCount := st.processedCount + 1,
                allContent := st.allContent ++ [⟨current, content, links.length⟩] }
      else st

/-- The states observable at each evaluation of the loop guard (these are
exactly the points where a concurrent `get_task` poll can read
`task.processed_count`, since the loop body mutates it atomically between
awaits), ending with the state at loop exit. -/
def processStatesF (scrape : ScrapeOracle) (limit : Nat) :
    Nat → CrawlState → List CrawlState
  | 0, st => [st]
  | fuel + 1, st =>
    match st.queue with
    | [] => [st]
    | current :: rest =>
      if st.processedCount < limit then
        st ::
          (if current ∈ st.processedUrls then
            processStatesF scrape limit fuel { st with queue := rest }
          else
            let seen := current :: st.processedUrls
            match scrape current with
            | none =>
              processStatesF scrape limit fuel { st with queue := rest, processedUrls := seen }
            | some (content, links) =>
              processStatesF scrape limit fuel
                { queue := enqueueLinks limit st.processedCount seen links rest,
                  processedUrls := seen,
                  processedCount := st.processedCount + 1,
                  allContent := st.allContent ++ [⟨current, content, links.length⟩] })
      else [st]

/-- A termination measure for the `while` loop: it strictly decreases on
every iteration (a processed page trades one unit of remaining budget for
at most `limit` freshly queued links; a skip shortens the queue), so using
it as fuel makes `processLoopF` run the loop to its natural exit. -/
def crawlFuel (limit : Nat) (st : CrawlState) : Nat :=
  (limit - st.processedCount) * (limit + 1) + st.queue.length

/-- Queue seeding of `process_queue` (services.py lines 99-109): the
centralized URLs (from `_find_centralized_urls`, an oracle here since it
only reflects network responses) are extended into the fresh queue, then
the initial URL is inserted at position 0 unless already present. -/
def initQueue (centralized : List String) (initialUrl : String) : List String :=
  if initialUrl ∈ centralized then centralized else initialUrl :: centralized

/-- The fresh bookkeeping created by `start_scraping` (services.py lines
84-87) combined with the queue seeding. -/
def crawlInitState (centralized : List String) (initialUrl : String) : CrawlState :=
  { queue := initQueue centralized initialUrl,
    processedUrls := [],
    processedCount := 0,
    allContent := [] }

/-- `limit = task.limit or 10` (services.py line 112): a falsy (zero)
stored limit falls back to 10. -/
def effectiveLimit (limit : Nat) : Nat := if limit = 0 then 10 else limit

/-- The traversal part of `process_queue`: run the loop from the seeded
state. -/
def crawlFinalState (scrape : ScrapeOracle) (centralized : List String)
    (initialUrl : String) (limit : Nat) : CrawlState :=
  let eff := effectiveLimit limit
  let st0 := crawlInitState centralized initialUrl
  processLoopF scrape eff (crawlFuel eff st0) st0

/-- All loop-guard states of the traversal. -/
def crawlStates (scrape : ScrapeOracle) (centralized : List String)
    (initialUrl : String) (limit : Nat) : List CrawlState :=
  let eff := effectiveLimit limit
  let st0 := crawlInitState centralized initialUrl
  processStatesF scrape eff (crawlFuel eff st0) st0

/- ----------------- finalization, callback, `get_task` ----------------- -/

/-- Task lifecycle states (`ProcessingStatus` in models.py). -/
inductive TaskStatus where
  | pending
  | processing
  | completed
  | failed
deriving DecidableEq, Repr

/-- `f"=== {item['url']} ===\n{item['content']}"`. -/
def sectionOf (e : PageEntry) : String :=
  "=== " ++ e.url ++ " ===\n" ++ e.content

/-- `"\n\n".join(...)` over the per-page sections (services.py lines
261-264). -/
def joinSections (es : List PageEntry) : String :=
  String.intercalate "\n\n" (es.map sectionOf)

/-- The fields of the `ScrapeResult` task record that `process_queue`,
`_finalize_task` and `get_task` read or write (timestamps omitted — no
claim mentions them). -/
structure TaskRecord where
  status : TaskStatus
  content : Option String
  links : Option (List String)
  allContent : Option (List PageEntry)
  error : Option String
  processedCount : Nat
  limit : Nat
deriving DecidableEq, Repr

/-- Outcome of one `_send_callback` POST: `none` = delivered with status
< 400; `some msg` = the coroutine raised (non-2xx raises
`Exception(f"Erro ao enviar callback: {response.status}")`, network errors
raise too), with `msg = str(e)`. -/
abbrev CallbackOracle := String → Option String

/-- `process_queue` after the loop: `_finalize_task` (services.py lines
256-288) builds the aggregated content, sets `task.links` from the
`all_links` set — whose collection loop body is `pass`, so it is always
empty — marks the task COMPLETED and then awaits `_send_callback` *without*
a try/except.  A callback exception therefore escapes `_finalize_task`
into the outer handler of `process_queue` (lines 154-165), which flips the
task to FAILED with `error = str(e)` and attempts a second callback inside
its own try/except (a no-op on the task state either way). -/
def runProcessQueue (scrape : ScrapeOracle) (deliver : CallbackOracle)
    (centralized : List String) (initialUrl : String)
    (callbackUrl : Option String) (limit : Nat) : TaskRecord :=
  let fin := crawlFinalState scrape centralized initialUrl limit
  let allLinks : List String := []
  let task1 : TaskRecord :=
    { status := .completed,
      content := some (joinSections fin.allContent),
      links := some allLinks,
      allContent := some fin.allContent,
      error := none,
      processedCount := fin.processedCount,
      limit := limit }
  match callbackUrl with
  | none => task1
  | some cb =>
    match deliver cb with
    | none => task1
    | some errMsg => { task1 with status := .failed, error := some errMsg }

/-- The view returned by the status endpoint. -/
structure TaskView where
  status : TaskStatus
  message : String
  content : Option String
  links : Option (List String)
  error : Option String
  limit : Nat
  processedCount : Nat
  queueSize : Nat
  allContent : Option (List PageEntry)
deriving DecidableEq, Repr

/-- `ScrapingService.get_task` (services.py lines 22-58) for an existing
task: content, links and all_content are exposed only when the task is
COMPLETED. -/
def getTask (task : TaskRecord) (queueSize : Nat) : TaskView :=
  let pc := task.processedCount
  let message :=
    if task.status = .processing then
      "Processando... " ++ toString pc ++ "/" ++ toString (effectiveLimit task.limit) ++
        " páginas. Fila: " ++ toString queueSize
    else if task.error.getD "" ≠ "" then
      "Erro: " ++ task.error.getD ""
    else if task.status = .pending then
      "Processamento iniciado"
    else
      "Processamento concluído com sucesso"
  { status := task.status,
    message := message,
    content := if task.status = .completed then task.content else none,
    links := if task.status = .completed then task.links else none,
    error := task.error,
    limit := task.limit,
    processedCount := pc,
    queueSize := queueSize,
    allContent := if task.status = .completed then task.allContent else none }

/- ----------------- concrete fixtures for witnesses ----------------- -/

/-- A crawl whose only page scrapes successfully with no links. -/
def scrapeSinglePage : ScrapeOracle := fun u =>
  if u = "https://example.com/page" then some ("hello", []) else none

/-- A webhook endpoint answering HTTP 500: `_send_callback` raises. -/
def deliverFailing : CallbackOracle := fun _ => some "Erro ao enviar callback: 500"

/-- A webhook endpoint answering 200: `_send_callback` returns normally. -/
def deliverOk : CallbackOracle := fun _ => none

/-- A two-page site: the home page links to `/a`. -/
def scrapeHomeWithLink : ScrapeOracle := fun u =>
  if u = "https://example.com" then some ("home", ["https://example.com/a"])
  else if u = "https://example.com/a" then some ("aaa", []) else none

/-- Renderer for a site whose start page links to `/a#frag` while the
sitemap lists `/a/`: two spellings of one resource. -/
def renderDupPaths : String → Option RenderResult := fun u =>
  if u = "https://example.com/start" then some ⟨"s", ["https://example.com/a#frag"]⟩
  else if u = "https://example.com/a/" then some ⟨"p", []⟩
  else if u = "https://example.com/a" then some ⟨"q", []⟩
  else none

/-- Renderer for a seed on `example.com` whose `llm.txt` listed a foreign
page `https://other.com/p`, which in turn links to `https://other.com/q`. -/
def renderForeign : String → Option RenderResult := fun u =>
  if u = "https://example.com" then some ⟨"home", []⟩
  else if u = "https://other.com/p" then some ⟨"pp", ["https://other.com/q"]⟩
  else if u = "https://other.com/q" then some ⟨"qq", []⟩
  else none

/-- Renderer for a seed page carrying two same-domain links. -/
def renderTwoLinks : String → Option RenderResult := fun u =>
  if u = "https://example.com/start" then
    some ⟨"s", ["https://example.com/b", "https://example.com/a"]⟩
  else none

/-- Every fetch fails (seed unreachable). -/
def scrapeNothing : ScrapeOracle := fun _ => none

/-- A scrape oracle where the seed succeeds with links to `/bad` and
`/good`, `/bad` raises mid-crawl and `/good` succeeds. -/
def scrapeMidFailure : ScrapeOracle := fun u =>
  if u = "https://example.com" then
    some ("home", ["https://example.com/bad", "https://example.com/good"])
  else if u = "https://example.com/good" then some ("g", [])
  else none

end Scraper

/- Sanity examples: parser behaviour on concrete URLs. -/

example : Scraper.normalizeUrl "https://example.com/a/?q=1#f" = "https://example.com/a" := by
  decide

example : Scraper.normalizeUrl "https://example.com/" = "https://example.com/" := by
  decide

namespace Scraper

/- ----------------- claim theorems ----------------- -/

/-- Claim C1 (code evaluated at the failing input): the traversal succeeds
— one page processed and recorded — but because `_finalize_task` awaits
`_send_callback` outside any try/except, the webhook failure escapes into
`process_queue`'s outer handler, which re-marks the already-COMPLETED task
as FAILED and stores the callback error.  The claim says a webhook failure
never changes the terminal status of a successful crawl. -/
theorem c1_webhook_failure_flips_completed_to_failed :
    (runProcessQueue scrapeSinglePage deliverFailing [] "https://example.com/page"
        (some "https://callback.example.org/hook") 1).status = TaskStatus.failed ∧
    (runProcessQueue scrapeSinglePage deliverFailing [] "https://example.com/page"
        (some "https://callback.example.org/hook") 1).error =
      some "Erro ao enviar callback: 500" ∧
    (runProcessQueue scrapeSinglePage deliverFailing [] "https://example.com/page"
        (some "https://callback.example.org/hook") 1).allContent =
      some [⟨"https://example.com/page", "hello", 0⟩] := by
  decide

/-- Claim C2 (code evaluated at the failing input): a COMPLETED task whose
first page yielded one followed link still reports `links = []` through
`get_task`, because the link-collection loop in `_finalize_task` has a
`pass` body and `all_links` stays empty.  The claim requires a non-empty
link list whenever a processed page yielded links. -/
theorem c2_completed_links_always_empty :
    (runProcessQueue scrapeHomeWithLink deliverOk [] "https://example.com" none 2).status =
      TaskStatus.completed ∧
    (runProcessQueue scrapeHomeWithLink deliverOk [] "https://example.com" none 2).allContent =
      some [⟨"https://example.com", "home", 1⟩, ⟨"https://example.com/a", "aaa", 0⟩] ∧
    (getTask (runProcessQueue scrapeHomeWithLink deliverOk [] "https://example.com" none 2)
        0).links = some [] := by
  decide

/-- Claim C4 counterexample: the sitemap spelling `/a/` and the in-page
spelling `/a` normalize identically, yet both are popped, marked seen and
scraped — the dedup set stores raw queue strings, and centralized URLs are
never normalized.  So two URLs with the same normalized form are both
fetched and extracted in one crawl. -/
theorem c4_counterexample :
    (crawlFinalState (scrapeUrl renderDupPaths) ["https://example.com/a/"]
        "https://example.com/start" 5).allContent.map PageEntry.url =
      ["https://example.com/start", "https://example.com/a/", "https://example.com/a"] ∧
    normalizeUrl "https://example.com/a/" = normalizeUrl "https://example.com/a" ∧
    ("https://example.com/a/" : String) ≠ "https://example.com/a" := by
  decide

/-- Claim C5 counterexample: `https://other.com/q` is enqueued (and then
processed) although its domain differs from the seed's `example.com`: the
filter in `_scrape_url` compares against the *current* page's domain
(`urlparse(url).netloc` of the page being scraped), not the seed's. -/
theorem c5_counterexample :
    ("https://other.com/q" ∈
      (crawlFinalState (scrapeUrl renderForeign) ["https://other.com/p"]
          "https://example.com" 3).allContent.map PageEntry.url) ∧
    "https://other.com/q" ∉ initQueue ["https://other.com/p"] "https://example.com" ∧
    (pyUrlparse "https://other.com/q".data).toOption.map UrlParts.netloc ≠
      (pyUrlparse "https://example.com".data).toOption.map UrlParts.netloc := by
  decide

/-- Claim C6 counterexample: with `limit = 1` the seed is the only page
processed, but the admission check `len(queue) + processed_count < limit`
runs *before* `processed_count` is incremented (0 + 0 < 1), so the first
link of the seed page is enqueued — the outbound-enqueue set is not empty
as the claim asserts. -/
theorem c6_counterexample :
    (crawlFinalState (scrapeUrl renderTwoLinks) [] "https://example.com/start" 1).queue =
      ["https://example.com/a"] ∧
    (crawlFinalState (scrapeUrl renderTwoLinks) [] "https://example.com/start"
        1).allContent.map PageEntry.url = ["https://example.com/start"] := by
  decide

/-- Claim C7 counterexample: when the seed fetch raises and nothing else is
queued, the per-URL `except` (services.py line 147) swallows the error and
the loop simply drains; `_finalize_task` then marks the task COMPLETED with
zero pages and no error message — not FAILED as the claim requires. -/
theorem c7_counterexample :
    (runProcessQueue scrapeNothing deliverOk [] "https://unreachable.example" none 5).status =
      TaskStatus.completed ∧
    (runProcessQueue scrapeNothing deliverOk [] "https://unreachable.example" none 5).error =
      none ∧
    (runProcessQueue scrapeNothing deliverOk [] "https://unreachable.example" none
        5).processedCount = 0 ∧
    (runProcessQueue scrapeNothing deliverOk [] "https://unreachable.example" none
        5).allContent = some [] := by
  decide

/-- Claim C9 counterexample: `_normalize_url` is not idempotent on all
inputs.  `urlparse` does not raise on the scheme-less `"example.com/a"`
(so the documented fallback never triggers); the function rebuilds it as
`"://example.com/a"`, and a second application prepends another `"://"`. -/
theorem c9_counterexample :
    normalizeUrl (normalizeUrl "example.com/a") ≠ normalizeUrl "example.com/a" := by
  decide

/- ----------------- loop invariants ----------------- -/

/-- The loop guard only admits an iteration while `processed_count < limit`
and increments by one, so `processed_count ≤ limit` holds at every
loop-guard evaluation. -/
theorem processStatesF_pc_le (scrape : ScrapeOracle) (limit : Nat) :
    ∀ fuel st, st.processedCount ≤ limit →
      ∀ s ∈ processStatesF scrape limit fuel st, s.processedCount ≤ limit := by
  intro fuel
  induction fuel with
  | zero =>
    intro st h s hs
    simp only [processStatesF, List.mem_singleton] at hs
    exact hs ▸ h
  | succ f ih =>
    rintro ⟨q, pu, pc, ac⟩ h s hs
    cases q with
    | nil =>
      simp only [processStatesF, List.mem_singleton] at hs
      exact hs ▸ h
    | cons current rest =>
      simp only [processStatesF] at hs h
      by_cases hlt : pc < limit
      · rw [if_pos hlt] at hs
        rcases List.mem_cons.mp hs with hs | hs
        · exact hs ▸ h
        · by_cases hmem : current ∈ pu
          · rw [if_pos hmem] at hs
            exact ih _ h s hs
          · rw [if_neg hmem] at hs
            cases hsc : scrape current with
            | none => rw [hsc] at hs; exact ih _ h s hs
            | some cl =>
              rw [hsc] at hs
              exact ih _ (Nat.succ_le_of_lt hlt) s hs
      · rw [if_neg hlt] at hs
        simp only [List.mem_singleton] at hs
        exact hs ▸ h

/-- Same invariant for the final state of the loop. -/
theorem processLoopF_pc_le (scrape : ScrapeOracle) (limit : Nat) :
    ∀ fuel st, st.processedCount ≤ limit →
      (processLoopF scrape limit fuel st).processedCount ≤ limit := by
  intro fuel
  induction fuel with
  | zero => intro st h; exact h
  | succ f ih =>
    rintro ⟨q, pu, pc, ac⟩ h
    cases q with
    | nil => exact h
    | cons current rest =>
      simp only [processLoopF] at h ⊢
      by_cases hlt : pc < limit
      · rw [if_pos hlt]
        by_cases hmem : current ∈ pu
        · rw [if_pos hmem]; exact ih _ h
        · rw [if_neg hmem]
          cases hsc : scrape current with
          | none => exact ih _ h
          | some cl => exact ih _ (Nat.succ_le_of_lt hlt)
      · rw [if_neg hlt]; exact h

/-- Claim C3: for a crawl started with a positive limit, the processed-page
counter never exceeds the limit — neither at any loop-guard point a status
poll can observe, nor in the finalized task record. -/
theorem c3_processed_count_le_limit (scrape : ScrapeOracle) (deliver : CallbackOracle)
    (centralized : List String) (initialUrl : String) (cb : Option String)
    (limit : Nat) (h : 0 < limit) :
    (∀ s ∈ crawlStates scrape centralized initialUrl limit, s.processedCount ≤ limit) ∧
    (runProcessQueue scrape deliver centralized initialUrl cb limit).processedCount ≤ limit := by
  have he : effectiveLimit limit = limit := if_neg (Nat.pos_iff_ne_zero.mp h)
  constructor
  · intro s hs
    simp only [crawlStates, he] at hs
    exact processStatesF_pc_le scrape limit _ _ (Nat.zero_le _) s hs
  · have hfin : (runProcessQueue scrape deliver centralized initialUrl cb limit).processedCount
        = (crawlFinalState scrape centralized initialUrl limit).processedCount := by
      unfold runProcessQueue
      cases cb with
      | none => rfl
      | some c => cases hd : deliver c <;> simp only [hd]
    rw [hfin]
    simp only [crawlFinalState, he]
    exact processLoopF_pc_le scrape limit _ _ (Nat.zero_le _)

/-- A loop iteration appends a page entry exactly when it increments the
counter, so the offset between counter and entry-list length is
preserved. -/
theorem processLoopF_pc_eq_len (scrape : ScrapeOracle) (limit : Nat) :
    ∀ fuel st,
      (processLoopF scrape limit fuel st).processedCount + st.allContent.length
        = (processLoopF scrape limit fuel st).allContent.length + st.processedCount := by
  intro fuel
  induction fuel with
  | zero => intro st; exact Nat.add_comm _ _
  | succ f ih =>
    rintro ⟨q, pu, pc, ac⟩
    cases q with
    | nil => exact Nat.add_comm _ _
    | cons current rest =>
      simp only [processLoopF]
      by_cases hlt : pc < limit
      · rw [if_pos hlt]
        by_cases hmem : current ∈ pu
        · rw [if_pos hmem]; exact ih ⟨rest, pu, pc, ac⟩
        · rw [if_neg hmem]
          cases hsc : scrape current with
          | none => exact ih ⟨rest, current :: pu, pc, ac⟩
          | some cl =>
            obtain ⟨content, links⟩ := cl
            have h := ih ⟨enqueueLinks limit pc (current :: pu) links rest,
              current :: pu, pc + 1, ac ++ [⟨current, content, links.length⟩]⟩
            simp only [List.length_append, List.length_singleton] at h ⊢
            omega
      · rw [if_neg hlt]; exact Nat.add_comm _ _

/-- Entries are only appended for URLs whose scrape succeeded, with the
returned content and link count recorded verbatim. -/
theorem processLoopF_entries_ok (scrape : ScrapeOracle) (limit : Nat) :
    ∀ fuel st e, e ∈ (processLoopF scrape limit fuel st).allContent →
      e ∈ st.allContent ∨
        ∃ l, scrape e.url = some (e.content, l) ∧ e.linksFound = l.length := by
  intro fuel
  induction fuel with
  | zero => intro st e he; exact Or.inl he
  | succ f ih =>
    rintro ⟨q, pu, pc, ac⟩ e he
    cases q with
    | nil => exact Or.inl he
    | cons current rest =>
      simp only [processLoopF] at he
      by_cases hlt : pc < limit
      · rw [if_pos hlt] at he
        by_cases hmem : current ∈ pu
        · rw [if_pos hmem] at he; exact ih ⟨rest, pu, pc, ac⟩ e he
        · rw [if_neg hmem] at he
          cases hsc : scrape current with
          | none => rw [hsc] at he; exact ih ⟨rest, current :: pu, pc, ac⟩ e he
          | some cl =>
            obtain ⟨content, links⟩ := cl
            rw [hsc] at he
            rcases ih ⟨enqueueLinks limit pc (current :: pu) links rest, current :: pu,
              pc + 1, ac ++ [⟨current, content, links.length⟩]⟩ e he with hin | hok
            · rcases List.mem_append.mp hin with hin | hin
              · exact Or.inl hin
              · rcases List.mem_singleton.mp hin with rfl
                exact Or.inr ⟨links, hsc, rfl⟩
            · exact Or.inr hok
      · rw [if_neg hlt] at he; exact Or.inl he

/-- The entry list never records the same queue string twice: a URL joins
the seen-set the moment it is popped and is skipped forever after. -/
theorem processLoopF_nodup (scrape : ScrapeOracle) (limit : Nat) :
    ∀ fuel st,
      ((st.allContent.map PageEntry.url).Nodup ∧
        ∀ u ∈ st.allContent.map PageEntry.url, u ∈ st.processedUrls) →
      (((processLoopF scrape limit fuel st).allContent.map PageEntry.url).Nodup ∧
        ∀ u ∈ (processLoopF scrape limit fuel st).allContent.map PageEntry.url,
          u ∈ (processLoopF scrape limit fuel st).processedUrls) := by
  intro fuel
  induction fuel with
  | zero => intro st h; exact h
  | succ f ih =>
    rintro ⟨q, pu, pc, ac⟩ ⟨hnd, hsub⟩
    cases q with
    | nil => exact ⟨hnd, hsub⟩
    | cons current rest =>
      simp only [processLoopF]
      by_cases hlt : pc < limit
      · rw [if_pos hlt]
        by_cases hmem : current ∈ pu
        · rw [if_pos hmem]; exact ih _ ⟨hnd, hsub⟩
        · rw [if_neg hmem]
          cases hsc : scrape current with
          | none =>
            exact ih _ ⟨hnd, fun u hu => List.mem_cons_of_mem _ (hsub u hu)⟩
          | some cl =>
            obtain ⟨content, links⟩ := cl
            apply ih
            constructor
            · simp only [List.map_append, List.map_singleton]
              rw [List.nodup_append]
              refine ⟨hnd, List.nodup_singleton _, ?_⟩
              intro u hu hu1
              rcases List.mem_singleton.mp hu1 with rfl
              exact hmem (hsub u hu)
            · intro u hu
              simp only [List.map_append, List.map_singleton] at hu
              rcases List.mem_append.mp hu with hu | hu
              · exact List.mem_cons_of_mem _ (hsub u hu)
              · rcases List.mem_singleton.mp hu with rfl
                exact List.mem_cons_self _ _
      · rw [if_neg hlt]; exact ⟨hnd, hsub⟩

/-- `process_queue` always stores the traversal's entry list in the task
record (whatever the callback oracle does). -/
theorem runProcessQueue_allContent (scrape : ScrapeOracle) (deliver : CallbackOracle)
    (centralized : List String) (initialUrl : String) (cb : Option String) (limit : Nat) :
    (runProcessQueue scrape deliver centralized initialUrl cb limit).allContent
      = some (crawlFinalState scrape centralized initialUrl limit).allContent := by
  unfold runProcessQueue
  cases cb with
  | none => rfl
  | some c => cases hd : deliver c <;> simp only [hd]

/-- Claim C4 amended: deduplication is by exact queue string.  No exact URL
string is recorded as processed twice in one crawl (while distinct
spellings with one normalized form may each be processed once, as the
counterexample shows). -/
theorem c4_amended_exact_string_dedup (scrape : ScrapeOracle) (deliver : CallbackOracle)
    (centralized : List String) (initialUrl : String) (cb : Option String) (limit : Nat) :
    (((runProcessQueue scrape deliver centralized initialUrl cb limit).allContent.getD
        []).map PageEntry.url).Nodup := by
  rw [runProcessQueue_allContent, Option.getD_some]
  have h := processLoopF_nodup scrape (effectiveLimit limit)
    (crawlFuel (effectiveLimit limit) (crawlInitState centralized initialUrl))
    (crawlInitState centralized initialUrl)
    (by simp [crawlInitState])
  exact h.1

/-- Every entry of a finished crawl's entry list comes from a successful
scrape. -/
theorem runProcessQueue_entries_ok (scrape : ScrapeOracle) (deliver : CallbackOracle)
    (centralized : List String) (initialUrl : String) (cb : Option String) (limit : Nat) :
    ∀ e ∈ (runProcessQueue scrape deliver centralized initialUrl cb limit).allContent.getD [],
      ∃ c l, scrape e.url = some (c, l) := by
  intro e he
  rw [runProcessQueue_allContent, Option.getD_some] at he
  rcases processLoopF_entries_ok scrape (effectiveLimit limit)
      (crawlFuel (effectiveLimit limit) (crawlInitState centralized initialUrl))
      (crawlInitState centralized initialUrl) e he with hin | ⟨l, hl, _⟩
  · simp [crawlInitState] at hin
  · exact ⟨e.content, l, hl⟩

/-- Claim C8: an extraction error on one mid-crawl URL is caught and
treated as a skip — with no webhook configured the task still finalizes
COMPLETED, the failing URL contributes no per-page entry, every recorded
entry comes from a successful scrape, and at finalization the processed
counter equals the number of per-page entries. -/
theorem c8_extraction_failure_is_skip (scrape : ScrapeOracle) (deliver : CallbackOracle)
    (centralized : List String) (initialUrl : String) (limit : Nat) (b : String)
    (hb : scrape b = none) :
    (runProcessQueue scrape deliver centralized initialUrl none limit).status
        = TaskStatus.completed ∧
    (runProcessQueue scrape deliver centralized initialUrl none limit).processedCount
        = ((runProcessQueue scrape deliver centralized initialUrl none limit).allContent.getD
            []).length ∧
    b ∉ ((runProcessQueue scrape deliver centralized initialUrl none limit).allContent.getD
        []).map PageEntry.url ∧
    ∀ e ∈ (runProcessQueue scrape deliver centralized initialUrl none limit).allContent.getD [],
      ∃ c l, scrape e.url = some (c, l) := by
  refine ⟨rfl, ?_, ?_, runProcessQueue_entries_ok scrape deliver centralized initialUrl none limit⟩
  · rw [runProcessQueue_allContent, Option.getD_some]
    have hpc : (runProcessQueue scrape deliver centralized initialUrl none limit).processedCount
        = (crawlFinalState scrape centralized initialUrl limit).processedCount := rfl
    rw [hpc]
    have hlen := processLoopF_pc_eq_len scrape (effectiveLimit limit)
      (crawlFuel (effectiveLimit limit) (crawlInitState centralized initialUrl))
      (crawlInitState centralized initialUrl)
    simp only [crawlInitState, List.length_nil, Nat.add_zero] at hlen
    simp only [crawlFinalState]
    exact hlen
  · intro hmem
    rcases List.mem_map.mp hmem with ⟨e, he, heq⟩
    rcases runProcessQueue_entries_ok scrape deliver centralized initialUrl none limit e he
      with ⟨c, l, hl⟩
    rw [heq, hb] at hl
    exact Option.noConfusion hl

/-- Witness for C8: the seed links to `/bad` (which raises) and `/good`
(which succeeds). -/
theorem c8_witness :
    scrapeMidFailure "https://example.com/bad" = none ∧
    ((runProcessQueue scrapeMidFailure deliverOk [] "https://example.com" none 5).status
        = TaskStatus.completed ∧
    (runProcessQueue scrapeMidFailure deliverOk [] "https://example.com" none 5).processedCount
        = ((runProcessQueue scrapeMidFailure deliverOk [] "https://example.com" none
            5).allContent.getD []).length ∧
    "https://example.com/bad" ∉
      ((runProcessQueue scrapeMidFailure deliverOk [] "https://example.com" none
          5).allContent.getD []).map PageEntry.url ∧
    ∀ e ∈ (runProcessQueue scrapeMidFailure deliverOk [] "https://example.com" none
        5).allContent.getD [],
      ∃ c l, scrapeMidFailure e.url = some (c, l)) :=
  ⟨by decide,
    c8_extraction_failure_is_skip scrapeMidFailure deliverOk [] "https://example.com" 5
      "https://example.com/bad" (by decide)⟩

/-- The loop body never runs on an empty queue. -/
theorem processLoopF_nil (scrape : ScrapeOracle) (limit : Nat) :
    ∀ fuel pu pc ac, processLoopF scrape limit fuel ⟨[], pu, pc, ac⟩ = ⟨[], pu, pc, ac⟩ := by
  intro fuel pu pc ac
  cases fuel <;> rfl

/-- The loop exits as soon as the processed counter reaches the limit. -/
theorem processLoopF_stop (scrape : ScrapeOracle) (limit : Nat) :
    ∀ fuel st, ¬st.processedCount < limit → processLoopF scrape limit fuel st = st := by
  rintro fuel ⟨q, pu, pc, ac⟩ h
  cases fuel with
  | zero => rfl
  | succ f =>
    cases q with
    | nil => rfl
    | cons current rest =>
      simp only [processLoopF]
      rw [if_neg h]

/-- `task.limit or 10` is always positive. -/
theorem effectiveLimit_pos (limit : Nat) : 0 < effectiveLimit limit := by
  unfold effectiveLimit
  split <;> omega

/-- Claim C7 amended: a failing seed fetch is handled by the generic
per-URL `except`, so with an otherwise empty frontier the task finalizes
COMPLETED with zero processed pages, an empty per-page list and no error
message — it does not become FAILED. -/
theorem c7_amended_seed_failure_completes (scrape : ScrapeOracle) (deliver : CallbackOracle)
    (seed : String) (limit : Nat) (h : scrape seed = none) :
    (runProcessQueue scrape deliver [] seed none limit).status = TaskStatus.completed ∧
    (runProcessQueue scrape deliver [] seed none limit).processedCount = 0 ∧
    (runProcessQueue scrape deliver [] seed none limit).allContent = some [] ∧
    (runProcessQueue scrape deliver [] seed none limit).error = none := by
  have hst0 : crawlInitState [] seed = ⟨[seed], [], 0, []⟩ := by
    simp [crawlInitState, initQueue]
  have hfin : crawlFinalState scrape [] seed limit = ⟨[], [seed], 0, []⟩ := by
    simp only [crawlFinalState, hst0]
    have hfuel : crawlFuel (effectiveLimit limit) (⟨[seed], [], 0, []⟩ : CrawlState)
        = (effectiveLimit limit - 0) * (effectiveLimit limit + 1) + 1 := rfl
    rw [hfuel]
    simp only [processLoopF]
    rw [if_pos (effectiveLimit_pos limit), if_neg (List.not_mem_nil seed), h]
    exact processLoopF_nil scrape (effectiveLimit limit) _ [seed] 0 []
  refine ⟨rfl, ?_, ?_, rfl⟩
  · show (crawlFinalState scrape [] seed limit).processedCount = 0
    rw [hfin]
  · rw [runProcessQueue_allContent, hfin]

/-- Witness for C7 amended: unreachable seed, empty frontier. -/
theorem c7_amended_witness :
    scrapeNothing "https://unreachable.example" = none ∧
    ((runProcessQueue scrapeNothing deliverOk [] "https://unreachable.example" none 7).status
        = TaskStatus.completed ∧
    (runProcessQueue scrapeNothing deliverOk [] "https://unreachable.example" none
        7).processedCount = 0 ∧
    (runProcessQueue scrapeNothing deliverOk [] "https://unreachable.example" none
        7).allContent = some [] ∧
    (runProcessQueue scrapeNothing deliverOk [] "https://unreachable.example" none 7).error
        = none) :=
  ⟨rfl,
    c7_amended_seed_failure_completes scrapeNothing deliverOk "https://unreachable.example" 7
      rfl⟩

/-- The admission check keeps the queue from growing past the remaining
budget: appending stops once `len(queue) + processed_count < limit`
fails. -/
theorem enqueueLinks_length_le (limit pc : Nat) (seen : List String) :
    ∀ links q, (enqueueLinks limit pc seen links q).length ≤ max q.length (limit - pc) := by
  intro links
  induction links with
  | nil => intro q; exact le_max_left _ _
  | cons l ls ih =>
    intro q
    simp only [enqueueLinks, List.foldl_cons] at ih ⊢
    by_cases hc : l ∉ seen ∧ l ∉ q ∧ q.length + pc < limit
    · rw [if_pos hc]
      refine le_trans (ih (q ++ [l])) ?_
      have hle : (q ++ [l]).length ≤ limit - pc := by
        simp only [List.length_append, List.length_singleton]
        omega
      rw [Nat.max_eq_right hle]
      exact le_max_right _ _
    · rw [if_neg hc]
      exact ih q

/-- Claim C6 amended: a crawl with `limit = 1` processes exactly the seed
page, and because the admission check runs before the counter increment it
may enqueue the seed page's first admissible link — at most one link, and
that link is never processed (the loop exits at the budget). -/
theorem c6_amended_limit_one (scrape : ScrapeOracle) (seed content : String)
    (links : List String) (h : scrape seed = some (content, links)) :
    (crawlFinalState scrape [] seed 1).allContent = [⟨seed, content, links.length⟩] ∧
    (crawlFinalState scrape [] seed 1).queue.length ≤ 1 ∧
    (crawlFinalState scrape [] seed 1).processedCount = 1 := by
  have hst0 : crawlInitState [] seed = ⟨[seed], [], 0, []⟩ := by
    simp [crawlInitState, initQueue]
  have hfin : crawlFinalState scrape [] seed 1
      = ⟨enqueueLinks 1 0 [seed] links [], [seed], 1, [⟨seed, content, links.length⟩]⟩ := by
    simp only [crawlFinalState, hst0]
    have hfuel : crawlFuel (effectiveLimit 1) (⟨[seed], [], 0, []⟩ : CrawlState) = 2 + 1 := rfl
    rw [hfuel]
    simp only [processLoopF]
    rw [if_pos (by decide : (0 : Nat) < effectiveLimit 1), if_neg (List.not_mem_nil seed), h]
    exact processLoopF_stop scrape (effectiveLimit 1) 2
      ⟨enqueueLinks 1 0 [seed] links [], [seed], 1, [⟨seed, content, links.length⟩]⟩
      (show ¬(1 : Nat) < effectiveLimit 1 by decide)
  refine ⟨?_, ?_, ?_⟩
  · rw [hfin]
  · rw [hfin]
    simpa using enqueueLinks_length_le 1 0 [seed] links []
  · rw [hfin]

/-- Witness for C6 amended: seed page with two same-domain links. -/
theorem c6_amended_witness :
    scrapeUrl renderTwoLinks "https://example.com/start"
        = some ("s", ["https://example.com/a", "https://example.com/b"]) ∧
    ((crawlFinalState (scrapeUrl renderTwoLinks) [] "https://example.com/start" 1).allContent
        = [⟨"https://example.com/start", "s", 2⟩] ∧
    (crawlFinalState (scrapeUrl renderTwoLinks) [] "https://example.com/start"
        1).queue.length ≤ 1 ∧
    (crawlFinalState (scrapeUrl renderTwoLinks) [] "https://example.com/start"
        1).processedCount = 1) :=
  ⟨by decide,
    c6_amended_limit_one (scrapeUrl renderTwoLinks) "https://example.com/start" "s"
      ["https://example.com/a", "https://example.com/b"] (by decide)⟩

/-- What a successful `linkFilter` verdict guarantees about the kept
link. -/
theorem linkFilter_some (bd : List Char) (link x : String)
    (h : linkFilter bd link = some x) :
    x = normalizeUrl link ∧
    ∃ p : UrlParts, pyUrlparse x.data = .ok p ∧ replaceWww p.netloc = bd ∧
      p.path ≠ [] ∧ p.path ≠ ['/'] ∧ bannedExt p.path = false := by
  cases hp : pyUrlparse (normalizeUrl link).data with
  | error e => simp only [linkFilter, hp] at h; exact Option.noConfusion h
  | ok p =>
    simp only [linkFilter, hp] at h
    by_cases hc : replaceWww p.netloc = bd ∧
        p.path ≠ [] ∧ p.path ≠ ['/'] ∧ bannedExt p.path = false
    · rw [if_pos hc] at h
      have hx : normalizeUrl link = x := Option.some.inj h
      subst hx
      exact ⟨rfl, p, hp, hc.1, hc.2.1, hc.2.2.1, hc.2.2.2⟩
    · rw [if_neg hc] at h
      exact Option.noConfusion h

/-- Every element produced by the filter loop comes from a successful
`linkFilter` verdict on one of the page's raw links (or was already in the
accumulator). -/
theorem collectFilteredAux_mem (bd : List Char) :
    ∀ links acc x, x ∈ collectFilteredAux bd acc links →
      x ∈ acc ∨ ∃ link ∈ links, linkFilter bd link = some x := by
  intro links
  induction links with
  | nil => intro acc x h; exact Or.inl h
  | cons l ls ih =>
    intro acc x h
    cases hf : linkFilter bd l with
    | none =>
      simp only [collectFilteredAux, hf] at h
      rcases ih acc x h with h | ⟨link, hl, hfl⟩
      · exact Or.inl h
      · exact Or.inr ⟨link, List.mem_cons_of_mem _ hl, hfl⟩
    | some n =>
      simp only [collectFilteredAux, hf] at h
      by_cases hmem : n ∈ acc
      · rw [if_pos hmem] at h
        rcases ih acc x h with h | ⟨link, hl, hfl⟩
        · exact Or.inl h
        · exact Or.inr ⟨link, List.mem_cons_of_mem _ hl, hfl⟩
      · rw [if_neg hmem] at h
        rcases ih _ x h with h | ⟨link, hl, hfl⟩
        · rcases List.mem_append.mp h with h | h
          · exact Or.inl h
          · rcases List.mem_singleton.mp h with rfl
            exact Or.inr ⟨l, List.mem_cons_self _ _, hf⟩
        · exact Or.inr ⟨link, List.mem_cons_of_mem _ hl, hfl⟩

/-- The filter loop preserves distinctness of the accumulator (it models a
Python `set`). -/
theorem collectFilteredAux_nodup (bd : List Char) :
    ∀ links acc, acc.Nodup → (collectFilteredAux bd acc links).Nodup := by
  intro links
  induction links with
  | nil => intro acc h; exact h
  | cons l ls ih =>
    intro acc h
    cases hf : linkFilter bd l with
    | none => simp only [collectFilteredAux, hf]; exact ih acc h
    | some n =>
      simp only [collectFilteredAux, hf]
      by_cases hmem : n ∈ acc
      · rw [if_pos hmem]; exact ih acc h
      · rw [if_neg hmem]
        apply ih
        rw [List.nodup_append]
        exact ⟨h, List.nodup_singleton _, by
          intro u hu hu1
          rcases List.mem_singleton.mp hu1 with rfl
          exact hmem hu⟩

/-- `charListLe` is total. -/
theorem charListLe_total : ∀ a b : List Char,
    charListLe a b = true ∨ charListLe b a = true := by
  intro a
  induction a with
  | nil => intro b; exact Or.inl rfl
  | cons x xs ih =>
    intro b
    cases b with
    | nil => exact Or.inr rfl
    | cons y ys =>
      simp only [charListLe]
      rcases Nat.lt_trichotomy x.toNat y.toNat with h | h | h
      · left; rw [if_pos h]
      · rw [if_neg (by omega), if_neg (by omega), if_neg (by omega), if_neg (by omega)]
        exact ih ys
      · right; rw [if_pos h]

/-- `charListLe` is transitive. -/
theorem charListLe_trans : ∀ a b c : List Char,
    charListLe a b = true → charListLe b c = true → charListLe a c = true := by
  intro a
  induction a with
  | nil => intro b c _ _; rfl
  | cons x xs ih =>
    intro b c hab hbc
    cases b with
    | nil => simp [charListLe] at hab
    | cons y ys =>
      cases c with
      | nil => simp [charListLe] at hbc
      | cons z zs =>
        simp only [charListLe] at hab hbc ⊢
        rcases Nat.lt_trichotomy x.toNat y.toNat with h1 | h1 | h1 <;>
          rcases Nat.lt_trichotomy y.toNat z.toNat with h2 | h2 | h2
        · rw [if_pos (by omega)]
        · rw [if_pos (by omega)]
        · rw [if_neg (by omega), if_pos h2] at hbc
          exact absurd hbc (by simp)
        · rw [if_pos (by omega)]
        · rw [if_neg (by omega), if_neg (by omega)]
          rw [if_neg (by omega), if_neg (by omega)] at hab
          rw [if_neg (by omega), if_neg (by omega)] at hbc
          exact ih ys zs hab hbc
        · rw [if_neg (by omega), if_pos h2] at hbc
          exact absurd hbc (by simp)
        · rw [if_neg (by omega), if_pos h1] at hab
          exact absurd hab (by simp)
        · rw [if_neg (by omega), if_pos h1] at hab
          exact absurd hab (by simp)
        · rw [if_neg (by omega), if_pos h1] at hab
          exact absurd hab (by simp)

/-- Claim C5 amended: in `_scrape_url` the outbound links kept for a page
all share the (`www.`-stripped) domain of the *page being scraped* — the
comparison is against `urlparse(url).netloc` of the current page, not of
the crawl's seed, so crawl scope follows whatever pages enter the queue. -/
theorem c5_amended_current_page_domain (render : String → Option RenderResult)
    (url content : String) (links : List String)
    (h : scrapeUrl render url = some (content, links)) :
    ∃ pu : UrlParts, pyUrlparse url.data = .ok pu ∧
      ∀ l ∈ links, ∃ pl : UrlParts, pyUrlparse l.data = .ok pl ∧
        replaceWww pl.netloc = replaceWww pu.netloc := by
  unfold scrapeUrl at h
  cases hp : pyUrlparse url.data with
  | error e => rw [hp] at h; exact Option.noConfusion h
  | ok pu =>
    rw [hp] at h
    cases hr : render url with
    | none => rw [hr] at h; exact Option.noConfusion h
    | some rr =>
      rw [hr] at h
      have hpair := Option.some.inj h
      have hlinks : links = sortUrls (collectFiltered (replaceWww pu.netloc) rr.rawLinks) :=
        (congrArg Prod.snd hpair).symm
      refine ⟨pu, rfl, ?_⟩
      intro l hl
      rw [hlinks] at hl
      have hl2 : l ∈ collectFiltered (replaceWww pu.netloc) rr.rawLinks := by
        simpa [sortUrls] using hl
      rcases collectFilteredAux_mem _ _ _ _ hl2 with h0 | ⟨link, _, hfl⟩
      · exact absurd h0 (List.not_mem_nil l)
      · rcases linkFilter_some _ _ _ hfl with ⟨_, p, hp2, hdom, _⟩
        exact ⟨p, hp2, hdom⟩

/-- Witness for C5 amended at a concrete page. -/
theorem c5_amended_witness :
    scrapeUrl renderForeign "https://other.com/p" = some ("pp", ["https://other.com/q"]) ∧
    (∃ pu : UrlParts, pyUrlparse "https://other.com/p".data = .ok pu ∧
      ∀ l ∈ ["https://other.com/q"], ∃ pl : UrlParts, pyUrlparse l.data = .ok pl ∧
        replaceWww pl.netloc = replaceWww pu.netloc) :=
  ⟨by decide,
    c5_amended_current_page_domain renderForeign "https://other.com/p" "pp"
      ["https://other.com/q"] (by decide)⟩

/-- Claim C10: the outbound-link list `_scrape_url` records for a page is
sorted in code-point lexicographic order, duplicate-free, and every member
is a normalized URL whose path is nonempty, not the bare root `/`, and not
ending in `.jpg`, `.jpeg`, `.png`, `.gif`, `.css` or `.js` — in particular
a link to the domain root is never kept. -/
theorem c10_filtered_links_sorted_clean (render : String → Option RenderResult)
    (url content : String) (links : List String)
    (h : scrapeUrl render url = some (content, links)) :
    List.Sorted urlle links ∧ links.Nodup ∧
    ∀ l ∈ links, ∃ p : UrlParts, pyUrlparse l.data = .ok p ∧
      p.path ≠ [] ∧ p.path ≠ ['/'] ∧ bannedExt p.path = false := by
  unfold scrapeUrl at h
  cases hp : pyUrlparse url.data with
  | error e => rw [hp] at h; exact Option.noConfusion h
  | ok pu =>
    rw [hp] at h
    cases hr : render url with
    | none => rw [hr] at h; exact Option.noConfusion h
    | some rr =>
      rw [hr] at h
      have hpair := Option.some.inj h
      have hlinks : links = sortUrls (collectFiltered (replaceWww pu.netloc) rr.rawLinks) :=
        (congrArg Prod.snd hpair).symm
      haveI : IsTotal String urlle := ⟨fun a b => charListLe_total a.data b.data⟩
      haveI : IsTrans String urlle := ⟨fun a b c => charListLe_trans a.data b.data c.data⟩
      subst hlinks
      refine ⟨List.sorted_insertionSort urlle _, ?_, ?_⟩
      · exact (List.perm_insertionSort urlle _).nodup_iff.mpr
          (collectFilteredAux_nodup _ _ [] List.nodup_nil)
      · intro l hl
        have hl2 : l ∈ collectFiltered (replaceWww pu.netloc) rr.rawLinks := by
          simpa [sortUrls] using hl
        rcases collectFilteredAux_mem _ _ _ _ hl2 with h0 | ⟨link, _, hfl⟩
        · exact absurd h0 (List.not_mem_nil l)
        · rcases linkFilter_some _ _ _ hfl with ⟨_, p, hp2, _, hp3, hp4, hp5⟩
          exact ⟨p, hp2, hp3, hp4, hp5⟩

/-- Witness for C3 at a concrete crawl. -/
theorem c3_witness :
    (0 < 2 ∧
      ((∀ s ∈ crawlStates scrapeHomeWithLink [] "https://example.com" 2,
          s.processedCount ≤ 2) ∧
        (runProcessQueue scrapeHomeWithLink deliverOk [] "https://example.com"
            none 2).processedCount ≤ 2)) :=
  ⟨by decide,
    c3_processed_count_le_limit scrapeHomeWithLink deliverOk [] "https://example.com"
      none 2 (by decide)⟩

end Scraper

namespace Scraper

/- ----------------- character-class facts ----------------- -/

theorem char_eq_iff_toNat (c d : Char) : c = d ↔ c.toNat = d.toNat := by
  constructor
  · intro h; rw [h]
  · intro h; exact Char.ext (UInt32.ext h)

theorem isUpper_iff (c : Char) : c.isUpper = true ↔ 65 ≤ c.toNat ∧ c.toNat ≤ 90 := by
  simp only [Char.isUpper, Bool.and_eq_true, decide_eq_true_eq]
  exact Iff.rfl

theorem isLower_iff (c : Char) : c.isLower = true ↔ 97 ≤ c.toNat ∧ c.toNat ≤ 122 := by
  simp only [Char.isLower, Bool.and_eq_true, decide_eq_true_eq]
  exact Iff.rfl

theorem isAlpha_iff (c : Char) : c.isAlpha = true ↔
    (65 ≤ c.toNat ∧ c.toNat ≤ 90) ∨ (97 ≤ c.toNat ∧ c.toNat ≤ 122) := by
  simp only [Char.isAlpha, Bool.or_eq_true, isUpper_iff, isLower_iff]

theorem isDigit_iff (c : Char) : c.isDigit = true ↔ 48 ≤ c.toNat ∧ c.toNat ≤ 57 := by
  simp only [Char.isDigit, Bool.and_eq_true, decide_eq_true_eq]
  exact Iff.rfl

theorem toNat_charOfNat_small (n : Nat) (h : n < 55296) : (Char.ofNat n).toNat = n := by
  unfold Char.ofNat
  rw [dif_pos (Or.inl h)]
  rfl

theorem toLower_toNat (c : Char) : (Char.toLower c).toNat =
    if c.toNat ≥ 65 ∧ c.toNat ≤ 90 then c.toNat + 32 else c.toNat := by
  unfold Char.toLower
  by_cases h : c.toNat ≥ 65 ∧ c.toNat ≤ 90
  · rw [if_pos h, if_pos h]
    exact toNat_charOfNat_small _ (by omega)
  · rw [if_neg h, if_neg h]

theorem toLower_toLower (c : Char) : (Char.toLower c).toLower = c.toLower := by
  rw [char_eq_iff_toNat, toLower_toNat, toLower_toNat]
  split_ifs <;> omega

theorem isSchemeChar_iff (c : Char) : isSchemeChar c = true ↔
    (65 ≤ c.toNat ∧ c.toNat ≤ 90) ∨ (97 ≤ c.toNat ∧ c.toNat ≤ 122) ∨
    (48 ≤ c.toNat ∧ c.toNat ≤ 57) ∨ c.toNat = 43 ∨ c.toNat = 45 ∨ c.toNat = 46 := by
  simp only [isSchemeChar, Bool.or_eq_true, isAlpha_iff, isDigit_iff, decide_eq_true_eq,
    char_eq_iff_toNat, show ('+' : Char).toNat = 43 from rfl,
    show ('-' : Char).toNat = 45 from rfl, show ('.' : Char).toNat = 46 from rfl]
  tauto

theorem isSchemeChar_toLower (c : Char) (h : isSchemeChar c = true) :
    isSchemeChar c.toLower = true := by
  rw [isSchemeChar_iff] at h ⊢
  rw [toLower_toNat]
  split_ifs <;> omega

theorem isAlpha_toLower (c : Char) (h : c.isAlpha = true) : c.toLower.isAlpha = true := by
  rw [isAlpha_iff] at h ⊢
  rw [toLower_toNat]
  split_ifs <;> omega

theorem isUnsafeUrlChar_iff (c : Char) : isUnsafeUrlChar c = true ↔
    c.toNat = 9 ∨ c.toNat = 13 ∨ c.toNat = 10 := by
  simp only [isUnsafeUrlChar, Bool.or_eq_true, decide_eq_true_eq, char_eq_iff_toNat,
    show ('\t' : Char).toNat = 9 from rfl, show ('\r' : Char).toNat = 13 from rfl,
    show ('\n' : Char).toNat = 10 from rfl]
  tauto

theorem notNetlocDelim_iff (c : Char) : notNetlocDelim c = true ↔
    c.toNat ≠ 47 ∧ c.toNat ≠ 63 ∧ c.toNat ≠ 35 := by
  simp only [notNetlocDelim, Bool.and_eq_true, decide_eq_true_eq, ne_eq, char_eq_iff_toNat,
    show ('/' : Char).toNat = 47 from rfl, show ('?' : Char).toNat = 63 from rfl,
    show ('#' : Char).toNat = 35 from rfl]
  tauto

theorem isC0OrSpace_iff (c : Char) : isC0OrSpace c = true ↔ c.toNat ≤ 32 := by
  simp only [isC0OrSpace, decide_eq_true_eq]

theorem schemeChar_not_unsafe (c : Char) (h : isSchemeChar c = true) :
    isUnsafeUrlChar c = false := by
  rw [isSchemeChar_iff] at h
  rw [Bool.eq_false_iff]
  intro hu
  rw [isUnsafeUrlChar_iff] at hu
  omega

theorem schemeChar_ne_colon (c : Char) (h : isSchemeChar c = true) : c ≠ ':' := by
  rw [isSchemeChar_iff] at h
  rw [ne_eq, char_eq_iff_toNat, show (':' : Char).toNat = 58 from rfl]
  omega

/- ----------------- generic takeWhile and dropWhile facts ----------------- -/

theorem takeWhile_append_of_all {α : Type} (p : α → Bool) :
    ∀ (a b : List α), (∀ c ∈ a, p c = true) →
      (a ++ b).takeWhile p = a ++ b.takeWhile p := by
  intro a
  induction a with
  | nil => intro b _; simp
  | cons x xs ih =>
    intro b h
    rw [List.cons_append, List.takeWhile_cons_of_pos (h x (List.mem_cons_self _ _)),
      ih b (fun c hc => h c (List.mem_cons_of_mem _ hc)), List.cons_append]

theorem dropWhile_append_of_all {α : Type} (p : α → Bool) :
    ∀ (a b : List α), (∀ c ∈ a, p c = true) →
      (a ++ b).dropWhile p = b.dropWhile p := by
  intro a
  induction a with
  | nil => intro b _; simp
  | cons x xs ih =>
    intro b h
    rw [List.cons_append, List.dropWhile_cons_of_pos (h x (List.mem_cons_self _ _)),
      ih b (fun c hc => h c (List.mem_cons_of_mem _ hc))]

theorem takeWhile_eq_nil_of_head {α : Type} (p : α → Bool) (d : α) (b : List α)
    (h : b = [] ∨ p (b.headD d) = false) : b.takeWhile p = [] := by
  cases b with
  | nil => rfl
  | cons x t =>
    rcases h with h | h
    · exact absurd h (by simp)
    · simp only [List.headD_cons] at h
      rw [List.takeWhile_cons_of_neg (by rw [h]; exact Bool.false_ne_true)]

theorem dropWhile_eq_self_of_head {α : Type} (p : α → Bool) (d : α) (b : List α)
    (h : b = [] ∨ p (b.headD d) = false) : b.dropWhile p = b := by
  cases b with
  | nil => rfl
  | cons x t =>
    rcases h with h | h
    · exact absurd h (by simp)
    · simp only [List.headD_cons] at h
      rw [List.dropWhile_cons_of_neg (by rw [h]; exact Bool.false_ne_true)]

theorem dropWhile_head_or_nil {α : Type} (p : α → Bool) (d : α) :
    ∀ l : List α, l.dropWhile p = [] ∨ p ((l.dropWhile p).headD d) = false := by
  intro l
  induction l with
  | nil => exact Or.inl rfl
  | cons x t ih =>
    by_cases h : p x = true
    · rw [List.dropWhile_cons_of_pos h]; exact ih
    · rw [List.dropWhile_cons_of_neg h]
      exact Or.inr (by simpa using h)

theorem dropWhile_eq_nil_of_all {α : Type} (p : α → Bool) :
    ∀ l : List α, (∀ c ∈ l, p c = true) → l.dropWhile p = [] := by
  intro l
  induction l with
  | nil => intro _; rfl
  | cons x t ih =>
    intro h
    rw [List.dropWhile_cons_of_pos (h x (List.mem_cons_self _ _))]
    exact ih (fun c hc => h c (List.mem_cons_of_mem _ hc))

/- ----------------- reconstruction parse ----------------- -/

theorem splitScheme_of_append (a rest : List Char)
    (ha0 : a ≠ []) (haa : (a.headD ' ').isAlpha = true)
    (hac : ∀ c ∈ a, isSchemeChar c = true) :
    splitScheme (a ++ ':' :: rest) = (a.map Char.toLower, rest) := by
  have hcolon : ∀ c ∈ a, (fun c => decide ¬(c = ':')) c = true := by
    intro c hc
    simpa using schemeChar_ne_colon c (hac c hc)
  have hdw : (a ++ ':' :: rest).dropWhile (fun c => decide ¬(c = ':')) = ':' :: rest := by
    rw [dropWhile_append_of_all _ _ _ hcolon, List.dropWhile_cons_of_neg (by simp)]
  have htw : (a ++ ':' :: rest).takeWhile (fun c => decide ¬(c = ':')) = a := by
    rw [takeWhile_append_of_all _ _ _ hcolon, List.takeWhile_cons_of_neg (by simp),
      List.append_nil]
  unfold splitScheme
  simp only [ne_eq, hdw, htw]
  rw [if_pos ⟨ha0, haa, List.all_eq_true.mpr hac⟩]

theorem splitNetloc_of_append (n p : List Char)
    (hnd : ∀ c ∈ n, notNetlocDelim c = true)
    (hbr : (n.contains '[') = (n.contains ']'))
    (hph : p = [] ∨ p.headD ' ' = '/') :
    splitNetloc ('/' :: '/' :: (n ++ p)) = some (n, p) := by
  have hpt : p.takeWhile notNetlocDelim = [] := by
    apply takeWhile_eq_nil_of_head notNetlocDelim ' '
    rcases hph with h | h
    · exact Or.inl h
    · exact Or.inr (by rw [h]; decide)
  have hpd : p.dropWhile notNetlocDelim = p := by
    apply dropWhile_eq_self_of_head notNetlocDelim ' '
    rcases hph with h | h
    · exact Or.inl h
    · exact Or.inr (by rw [h]; decide)
  have htw : (n ++ p).takeWhile notNetlocDelim = n := by
    rw [takeWhile_append_of_all _ _ _ hnd, hpt, List.append_nil]
  have hdw : (n ++ p).dropWhile notNetlocDelim = p := by
    rw [dropWhile_append_of_all _ _ _ hnd, hpd]
  simp only [splitNetloc]
  rw [if_pos ⟨trivial, trivial⟩]
  simp only [htw, hdw]
  rw [if_neg (by rw [hbr]; simp)]

/-- Re-parsing `f"{scheme}://{netloc}{path}"` recovers exactly the three
components, when they have the shapes `urlparse` itself produces and the
path carries no fragment/query/params material. -/
theorem pyUrlparse_urlConcat (s n p : List Char)
    (hs0 : s ≠ [])
    (hsa : (s.headD ' ').isAlpha = true)
    (hsc : ∀ c ∈ s, isSchemeChar c = true)
    (hsl : s.map Char.toLower = s)
    (hnd : ∀ c ∈ n, notNetlocDelim c = true)
    (hnu : ∀ c ∈ n, isUnsafeUrlChar c = false)
    (hbr : (n.contains '[') = (n.contains ']'))
    (hph : p = [] ∨ p.headD ' ' = '/')
    (hpc : ∀ c ∈ p, c ≠ '#' ∧ c ≠ '?' ∧ isUnsafeUrlChar c = false)
    (hpsemi : ';' ∉ p) :
    pyUrlparse (urlConcat s n p) = .ok ⟨s, n, p, [], [], []⟩ := by
  rcases List.exists_cons_of_ne_nil hs0 with ⟨hd, tl, rfl⟩
  have hhda : hd.isAlpha = true := by simpa using hsa
  have hclean : cleanUrl (urlConcat (hd :: tl) n p) = urlConcat (hd :: tl) n p := by
    unfold cleanUrl urlConcat
    rw [List.cons_append, List.dropWhile_cons_of_neg (by
      rw [isC0OrSpace_iff, isAlpha_iff] at *
      omega)]
    rw [← List.cons_append]
    apply List.filter_eq_self.mpr
    intro c hc
    have hcu : isUnsafeUrlChar c = false := by
      rcases List.mem_append.mp hc with hc | hc
      · exact schemeChar_not_unsafe c (hsc c hc)
      · rcases List.mem_cons.mp hc with rfl | hc
        · decide
        · rcases List.mem_cons.mp hc with rfl | hc
          · decide
          · rcases List.mem_cons.mp hc with rfl | hc
            · decide
            · rcases List.mem_append.mp hc with hc | hc
              · exact hnu c hc
              · exact (hpc c hc).2.2
    simp [hcu]
  have hscheme : splitScheme (urlConcat (hd :: tl) n p)
      = ((hd :: tl).map Char.toLower, '/' :: '/' :: (n ++ p)) := by
    rw [show urlConcat (hd :: tl) n p = (hd :: tl) ++ ':' :: ('/' :: '/' :: (n ++ p)) from rfl]
    exact splitScheme_of_append (hd :: tl) _ (by simp) hsa hsc
  simp only [pyUrlparse]
  rw [hclean, hscheme, hsl]
  rw [splitNetloc_of_append n p hnd hbr hph]
  have hptF : p.takeWhile (fun c => decide ¬(c = '#')) = p := by
    apply List.takeWhile_eq_self_iff.mpr
    intro c hc
    simpa using (hpc c hc).1
  have hpdF : p.dropWhile (fun c => decide ¬(c = '#')) = [] := by
    apply dropWhile_eq_nil_of_all
    intro c hc
    simpa using (hpc c hc).1
  have hptQ : p.takeWhile (fun c => decide ¬(c = '?')) = p := by
    apply List.takeWhile_eq_self_iff.mpr
    intro c hc
    simpa using (hpc c hc).2.1
  have hpdQ : p.dropWhile (fun c => decide ¬(c = '?')) = [] := by
    apply dropWhile_eq_nil_of_all
    intro c hc
    simpa using (hpc c hc).2.1
  simp only [takeUntil, dropPast, hptF, hpdF, hptQ, hpdQ]
  rw [if_neg (by
    rintro ⟨-, hcon⟩
    exact hpsemi (List.elem_iff.mp hcon))]

/- ----------------- facts about parser outputs ----------------- -/

theorem mem_cleanUrl_not_unsafe (cs : List Char) :
    ∀ c ∈ cleanUrl cs, isUnsafeUrlChar c = false := by
  intro c hc
  have h := List.of_mem_filter hc
  simpa using h

theorem splitScheme_snd_subset (cs : List Char) :
    ∀ c ∈ (splitScheme cs).2, c ∈ cs := by
  intro c hc
  unfold splitScheme at hc
  cases hdw : cs.dropWhile (fun c => decide ¬(c = ':')) with
  | nil => rw [hdw] at hc; exact hc
  | cons d rest =>
    rw [hdw] at hc
    simp only at hc
    by_cases hcond : cs.takeWhile (fun c => decide ¬(c = ':')) ≠ [] ∧
        ((cs.takeWhile (fun c => decide ¬(c = ':'))).headD ' ').isAlpha = true ∧
        (cs.takeWhile (fun c => decide ¬(c = ':'))).all isSchemeChar = true
    · rw [if_pos hcond] at hc
      have hsub : List.Sublist (d :: rest) cs := hdw ▸ List.dropWhile_sublist _
      exact hsub.subset (List.mem_cons_of_mem _ hc)
    · rw [if_neg hcond] at hc
      exact hc

theorem splitScheme_fst_facts (cs : List Char) :
    (splitScheme cs).1 = [] ∨
    (((splitScheme cs).1.headD ' ').isAlpha = true ∧
      (∀ c ∈ (splitScheme cs).1, isSchemeChar c = true) ∧
      (splitScheme cs).1.map Char.toLower = (splitScheme cs).1) := by
  unfold splitScheme
  cases hdw : cs.dropWhile (fun c => decide ¬(c = ':')) with
  | nil => exact Or.inl rfl
  | cons d rest =>
    simp only
    by_cases hcond : cs.takeWhile (fun c => decide ¬(c = ':')) ≠ [] ∧
        ((cs.takeWhile (fun c => decide ¬(c = ':'))).headD ' ').isAlpha = true ∧
        (cs.takeWhile (fun c => decide ¬(c = ':'))).all isSchemeChar = true
    · rw [if_pos hcond]
      right
      obtain ⟨h0, hh, hall⟩ := hcond
      have hallm := List.all_eq_true.mp hall
      rcases List.exists_cons_of_ne_nil h0 with ⟨x, xs, hpre⟩
      rw [hpre] at hh hallm ⊢
      simp only [List.headD_cons] at hh
      refine ⟨?_, ?_, ?_⟩
      · simp only [List.map_cons, List.headD_cons]
        exact isAlpha_toLower x hh
      · intro c hc
        rcases List.mem_map.mp hc with ⟨c0, hc0, rfl⟩
        exact isSchemeChar_toLower c0 (hallm c0 hc0)
      · rw [List.map_map]
        apply List.map_congr_left
        intro a _
        exact toLower_toLower a
    · rw [if_neg hcond]
      exact Or.inl rfl

theorem splitNetloc_some_facts (rest nl rest2 : List Char)
    (h : splitNetloc rest = some (nl, rest2)) :
    (∀ c ∈ rest2, c ∈ rest) ∧
    (nl = [] ∨
      ((∀ c ∈ nl, notNetlocDelim c = true) ∧
        ((nl.contains '[') = (nl.contains ']')) ∧
        (∀ c ∈ nl, c ∈ rest) ∧
        (rest2 = [] ∨ notNetlocDelim (rest2.headD ' ') = false))) := by
  rcases rest with _ | ⟨c1, _ | ⟨c2, body⟩⟩
  · simp only [splitNetloc] at h
    obtain ⟨rfl, rfl⟩ := Prod.mk.injEq .. ▸ Option.some.inj h
    exact ⟨fun c hc => hc, Or.inl rfl⟩
  · simp only [splitNetloc] at h
    obtain ⟨rfl, rfl⟩ := Prod.mk.injEq .. ▸ Option.some.inj h
    exact ⟨fun c hc => hc, Or.inl rfl⟩
  · simp only [splitNetloc] at h
    by_cases hcc : c1 = '/' ∧ c2 = '/'
    · rw [if_pos hcc] at h
      by_cases hbr : ((body.takeWhile notNetlocDelim).contains '['
          != (body.takeWhile notNetlocDelim).contains ']') = true
      · rw [if_pos hbr] at h
        exact Option.noConfusion h
      · rw [if_neg hbr] at h
        have hp := Option.some.inj h
        have hnl : body.takeWhile notNetlocDelim = nl := congrArg Prod.fst hp
        have hr2 : body.dropWhile notNetlocDelim = rest2 := congrArg Prod.snd hp
        constructor
        · intro c hc
          rw [← hr2] at hc
          exact List.mem_cons_of_mem _ (List.mem_cons_of_mem _
            ((List.dropWhile_sublist _).subset hc))
        · right
          refine ⟨?_, ?_, ?_, ?_⟩
          · intro c hc
            rw [← hnl] at hc
            exact List.mem_takeWhile_imp hc
          · rw [← hnl]
            exact bne_eq_false_iff_eq.mp (Bool.eq_false_iff.mpr hbr)
          · intro c hc
            rw [← hnl] at hc
            exact List.mem_cons_of_mem _ (List.mem_cons_of_mem _
              ((List.takeWhile_sublist _).subset hc))
          · rw [← hr2]
            exact dropWhile_head_or_nil notNetlocDelim ' ' body
    · rw [if_neg hcc] at h
      obtain ⟨rfl, rfl⟩ := Prod.mk.injEq .. ▸ Option.some.inj h
      exact ⟨fun c hc => hc, Or.inl rfl⟩

theorem splitParams_fst_subset (p : List Char) :
    ∀ c ∈ (splitParams p).1, c ∈ p := by
  intro c hc
  unfold splitParams at hc
  by_cases h1 : p.contains ';' = true
  · rw [if_pos h1] at hc
    by_cases h2 : p.contains '/' = true
    · rw [if_pos h2] at hc
      by_cases h3 : ((p.reverse.takeWhile (fun c => decide ¬(c = '/'))).reverse.contains ';')
          = true
      · rw [if_pos h3] at hc
        rcases List.mem_append.mp hc with hc | hc
        · exact List.take_subset _ _ hc
        · have hc2 : c ∈ (p.reverse.takeWhile (fun c => decide ¬(c = '/'))).reverse :=
            (List.takeWhile_sublist _).subset hc
          rw [List.mem_reverse] at hc2
          have hc3 := (List.takeWhile_sublist _).subset hc2
          exact List.mem_reverse.mp hc3
      · rw [if_neg h3] at hc
        exact hc
    · rw [if_neg h2] at hc
      exact (List.takeWhile_sublist _).subset hc
  · rw [if_neg h1] at hc
    exact hc

theorem length_takeWhile_lt_of_exists {α : Type} (p : α → Bool) :
    ∀ l : List α, (∃ e ∈ l, p e = false) → (l.takeWhile p).length < l.length := by
  intro l
  induction l with
  | nil => rintro ⟨e, he, -⟩; cases he
  | cons x t ih =>
    rintro ⟨e, he, hpe⟩
    by_cases hx : p x = true
    · rw [List.takeWhile_cons_of_pos hx]
      simp only [List.length_cons]
      have hex : ∃ e ∈ t, p e = false := by
        rcases List.mem_cons.mp he with rfl | he2
        · exact absurd hx (by rw [hpe]; exact Bool.false_ne_true)
        · exact ⟨e, he2, hpe⟩
      exact Nat.succ_lt_succ (ih hex)
    · rw [List.takeWhile_cons_of_neg hx]
      simp only [List.length_nil, List.length_cons]
      exact Nat.succ_pos _

theorem splitParams_fst_head (p : List Char) (h : p = [] ∨ p.headD ' ' = '/') :
    (splitParams p).1 = [] ∨ ((splitParams p).1.headD ' ') = '/' := by
  rcases h with rfl | h
  · exact Or.inl rfl
  · cases p with
    | nil => exact Or.inl rfl
    | cons x t =>
      simp only [List.headD_cons] at h
      subst h
      unfold splitParams
      by_cases h1 : ('/' :: t).contains ';' = true
      · rw [if_pos h1]
        have h2 : ('/' :: t).contains '/' = true := by
          simp [List.contains, List.elem_iff]
        rw [if_pos h2]
        by_cases h3 : ((('/' :: t).reverse.takeWhile (fun c => decide ¬(c = '/'))).reverse.contains ';')
            = true
        · rw [if_pos h3]
          right
          have hlt : (('/' :: t).reverse.takeWhile (fun c => decide ¬(c = '/'))).length
              < ('/' :: t).reverse.length := by
            apply length_takeWhile_lt_of_exists
            refine ⟨'/', ?_, by simp⟩
            rw [List.mem_reverse]
            exact List.mem_cons_self _ _
          rw [List.length_reverse] at hlt
          set k := ('/' :: t).length -
            (('/' :: t).reverse.takeWhile (fun c => decide ¬(c = '/'))).reverse.length with hk
          have hk1 : 1 ≤ k := by
            rw [hk, List.length_reverse]
            omega
          rcases Nat.exists_eq_add_of_le hk1 with ⟨m, hm⟩
          rw [hm, Nat.add_comm 1 m, List.take_succ_cons, List.cons_append, List.headD_cons]
        · rw [if_neg h3]
          exact Or.inr rfl
      · rw [if_neg h1]
        exact Or.inr rfl

/-- What `urlparse` guarantees about the components it returns. -/
theorem pyUrlparse_ok_facts (cs : List Char) (r : UrlParts)
    (h : pyUrlparse cs = .ok r) :
    (r.scheme ≠ [] →
      ((r.scheme.headD ' ').isAlpha = true ∧
        (∀ c ∈ r.scheme, isSchemeChar c = true) ∧
        r.scheme.map Char.toLower = r.scheme)) ∧
    (r.netloc ≠ [] →
      ((∀ c ∈ r.netloc, notNetlocDelim c = true) ∧
        ((r.netloc.contains '[') = (r.netloc.contains ']')) ∧
        (∀ c ∈ r.netloc, isUnsafeUrlChar c = false) ∧
        (r.path = [] ∨ r.path.headD ' ' = '/'))) ∧
    (∀ c ∈ r.path, c ≠ '#' ∧ c ≠ '?' ∧ isUnsafeUrlChar c = false) := by
  simp only [pyUrlparse] at h
  cases hsn : splitNetloc (splitScheme (cleanUrl cs)).2 with
  | none => rw [hsn] at h; exact Except.noConfusion h
  | some nlr =>
    obtain ⟨nl, rest2⟩ := nlr
    rw [hsn] at h
    have hr := Except.ok.inj h
    subst hr
    obtain ⟨hsub2, hnlfacts⟩ := splitNetloc_some_facts _ _ _ hsn
    -- membership chains into the sanitised input
    have hmemu : ∀ c ∈ rest2, c ∈ cleanUrl cs := fun c hc =>
      splitScheme_snd_subset (cleanUrl cs) c (hsub2 c hc)
    -- the final path is contained in rest2 and avoids # and ?
    have hbfsub : ∀ c ∈ takeUntil '#' rest2, c ∈ rest2 := fun c hc =>
      (List.takeWhile_sublist _).subset hc
    have hbqsub : ∀ c ∈ takeUntil '?' (takeUntil '#' rest2), c ∈ takeUntil '#' rest2 :=
      fun c hc => (List.takeWhile_sublist _).subset hc
    have hpathsub : ∀ c ∈
        (if usesParams (splitScheme (cleanUrl cs)).1 = true ∧
            (takeUntil '?' (takeUntil '#' rest2)).contains ';' = true then
          splitParams (takeUntil '?' (takeUntil '#' rest2))
        else (takeUntil '?' (takeUntil '#' rest2), [])).1,
        c ∈ takeUntil '?' (takeUntil '#' rest2) := by
      intro c hc
      split at hc
      · exact splitParams_fst_subset _ c hc
      · exact hc
    refine ⟨?_, ?_, ?_⟩
    · intro hs
      have := splitScheme_fst_facts (cleanUrl cs)
      rcases this with h0 | hfacts
      · exact absurd h0 hs
      · exact hfacts
    · intro hn
      rcases hnlfacts with rfl | ⟨hnd, hbr, hnmem, hhead⟩
      · exact absurd rfl hn
      · refine ⟨hnd, hbr, ?_, ?_⟩
        · intro c hc
          exact mem_cleanUrl_not_unsafe cs c
            (splitScheme_snd_subset (cleanUrl cs) c (hnmem c hc))
        · -- head analysis of the path
          rcases hhead with rfl | hhd
          · left
            split <;> simp [splitParams, takeUntil]
          · have hr2ne : rest2 ≠ [] := by
              intro h0
              rw [h0] at hhd
              exact absurd hhd (by decide)
            rcases List.exists_cons_of_ne_nil hr2ne with ⟨c0, t2, hc0⟩
            rw [hc0] at hhd
            simp only [List.headD_cons] at hhd
            rw [Bool.eq_false_iff] at hhd
            have hc0n : c0.toNat = 47 ∨ c0.toNat = 63 ∨ c0.toNat = 35 := by
              by_contra hno
              push_neg at hno
              exact hhd (notNetlocDelim_iff c0 |>.mpr (by omega))
            rw [hc0]
            rcases hc0n with h47 | h63 | h35
            · -- leading '/': the slash survives both takeWhiles
              have hc0eq : c0 = '/' := char_eq_iff_toNat c0 '/' |>.mpr h47
              subst hc0eq
              simp only [takeUntil]
              rw [List.takeWhile_cons_of_pos (by decide), List.takeWhile_cons_of_pos (by decide)]
              split
              · exact splitParams_fst_head _ (Or.inr rfl)
              · exact Or.inr rfl
            · -- leading '?': beforeQuery is empty
              have hc0eq : c0 = '?' := char_eq_iff_toNat c0 '?' |>.mpr h63
              subst hc0eq
              simp only [takeUntil]
              rw [List.takeWhile_cons_of_pos (by decide), List.takeWhile_cons_of_neg (by decide)]
              left
              split <;> simp [splitParams]
            · -- leading '#': beforeFrag is empty
              have hc0eq : c0 = '#' := char_eq_iff_toNat c0 '#' |>.mpr h35
              subst hc0eq
              simp only [takeUntil]
              rw [List.takeWhile_cons_of_neg (by decide)]
              left
              split <;> simp [splitParams]
    · intro c hc
      have hcq := hpathsub c hc
      have hcf := hbqsub c hcq
      have hcr := hbfsub c hcf
      refine ⟨?_, ?_, mem_cleanUrl_not_unsafe cs c (hmemu c hcr)⟩
      · have := List.mem_takeWhile_imp hcf
        simpa using this
      · have := List.mem_takeWhile_imp hcq
        simpa using this

theorem headD_append_left {α : Type} (a b : List α) (d : α) (h : a ≠ []) :
    (a ++ b).headD d = a.headD d := by
  cases a with
  | nil => exact absurd rfl h
  | cons x xs => rfl

/-- Claim C9 amended: `_normalize_url` is idempotent on inputs that parse
with a nonempty scheme and a nonempty network location, have no `;` in
their parsed path, and whose path does not end in a doubled slash.  (The
counterexample shows idempotence fails in general: scheme-less inputs gain
a fresh `://` prefix on every application, because `urlparse` never raises
on them and the documented fallback is dead code.) -/
theorem c9_amended_idempotent_on_absolute (u : String) (r : UrlParts)
    (hp : pyUrlparse u.data = .ok r)
    (hs : r.scheme ≠ [])
    (hn : r.netloc ≠ [])
    (hsemi : ';' ∉ r.path)
    (hslash : ¬ List.IsSuffix ['/', '/'] r.path) :
    normalizeUrl (normalizeUrl u) = normalizeUrl u := by
  obtain ⟨hsf, hnf, hpcf⟩ := pyUrlparse_ok_facts u.data r hp
  obtain ⟨hsa, hsc, hsl⟩ := hsf hs
  obtain ⟨hnd, hbr, hnu, hph⟩ := hnf hn
  simp only [normalizeUrl, hp]
  by_cases hcond : urlConcat r.scheme r.netloc r.path ≠ urlConcat r.scheme r.netloc ['/'] ∧
      (urlConcat r.scheme r.netloc r.path).getLast? = some '/'
  · rw [if_pos hcond]
    obtain ⟨hne, hlast⟩ := hcond
    -- the trailing slash must come from the path
    have hconcat : ∀ q : List Char, urlConcat r.scheme r.netloc q
        = ((r.scheme ++ [':', '/', '/']) ++ r.netloc) ++ q := by
      intro q
      simp [urlConcat]
    have hpne : r.path ≠ [] := by
      intro h0
      rw [h0, hconcat, List.append_nil] at hlast
      rw [List.getLast?_append_of_ne_nil _ hn] at hlast
      have hmem := List.mem_of_getLast?_eq_some hlast
      have := hnd '/' hmem
      exact absurd this (by decide)
    have hplast : r.path.getLast? = some '/' := by
      rw [hconcat, List.getLast?_append_of_ne_nil _ hpne] at hlast
      exact hlast
    rcases List.getLast?_eq_some_iff.mp hplast with ⟨p', hp'⟩
    have hp'ne : p' ≠ [] := by
      intro h0
      rw [h0, List.nil_append] at hp'
      exact hne (by rw [hp'])
    have hdrop : (urlConcat r.scheme r.netloc r.path).dropLast
        = urlConcat r.scheme r.netloc p' := by
      rw [hp', hconcat, ← List.append_assoc, List.dropLast_concat, ← hconcat]
    rw [hdrop]
    -- facts about the shortened path
    have hph' : p' = [] ∨ p'.headD ' ' = '/' := by
      right
      rcases hph with h0 | h0
      · exact absurd h0 hpne
      · rw [hp', headD_append_left _ _ _ hp'ne] at h0
        exact h0
    have hpcf' : ∀ c ∈ p', c ≠ '#' ∧ c ≠ '?' ∧ isUnsafeUrlChar c = false := by
      intro c hc
      exact hpcf c (by rw [hp']; exact List.mem_append_left _ hc)
    have hsemi' : ';' ∉ p' := by
      intro hc
      exact hsemi (by rw [hp']; exact List.mem_append_left _ hc)
    have hparse2 : pyUrlparse (String.mk (urlConcat r.scheme r.netloc p')).data
        = .ok ⟨r.scheme, r.netloc, p', [], [], []⟩ :=
      pyUrlparse_urlConcat r.scheme r.netloc p' hs hsa hsc hsl hnd hnu hbr hph' hpcf' hsemi'
    simp only [normalizeUrl, hparse2]
    rw [if_neg (by
      rintro ⟨-, hl2⟩
      rw [hconcat, List.getLast?_append_of_ne_nil _ hp'ne] at hl2
      rcases List.getLast?_eq_some_iff.mp hl2 with ⟨p'', hp''⟩
      exact hslash ⟨p'', by rw [hp', hp'']; simp⟩)]
  · rw [if_neg hcond]
    have hparse2 : pyUrlparse (String.mk (urlConcat r.scheme r.netloc r.path)).data
        = .ok ⟨r.scheme, r.netloc, r.path, [], [], []⟩ :=
      pyUrlparse_urlConcat r.scheme r.netloc r.path hs hsa hsc hsl hnd hnu hbr
        (by
          rcases hph with h0 | h0
          · exact Or.inl h0
          · exact Or.inr h0)
        hpcf hsemi
    simp only [normalizeUrl, hparse2]
    rw [if_neg hcond]

/-- Witness for C9 amended at a concrete absolute URL. -/
theorem c9_amended_witness :
    pyUrlparse "https://www.example.com/docs/".data
        = Except.ok ⟨"https".data, "www.example.com".data, "/docs/".data, [], [], []⟩ ∧
    normalizeUrl (normalizeUrl "https://www.example.com/docs/")
        = normalizeUrl "https://www.example.com/docs/" :=
  ⟨rfl,
    c9_amended_idempotent_on_absolute "https://www.example.com/docs/"
      ⟨"https".data, "www.example.com".data, "/docs/".data, [], [], []⟩
      rfl (by decide) (by decide) (by decide) (by decide)⟩

end Scraper

namespace Scraper

/-- Witness for C10 at a concrete page. -/
theorem c10_witness :
    scrapeUrl renderTwoLinks "https://example.com/start"
        = some ("s", ["https://example.com/a", "https://example.com/b"]) ∧
    (List.Sorted urlle ["https://example.com/a", "https://example.com/b"] ∧
      (["https://example.com/a", "https://example.com/b"] : List String).Nodup ∧
      ∀ l ∈ ["https://example.com/a", "https://example.com/b"], ∃ p : UrlParts,
        pyUrlparse l.data = .ok p ∧
        p.path ≠ [] ∧ p.path ≠ ['/'] ∧ bannedExt p.path = false) :=
  ⟨by decide,
    c10_filtered_links_sorted_clean renderTwoLinks "https://example.com/start" "s"
      ["https://example.com/a", "https://example.com/b"] (by decide)⟩

end Scraper
